import Mathlib

/-!
# PipelineDemoGo: a pipeline of steps folding events over a state

Shallow embedding of `src/main.go`.

* A Go `float64` is modelled by `Float64`: NaN, the two infinities, or a finite
  dyadic number `(-1)^neg * mant * 2^exp`.  Arithmetic is IEEE 754 binary64: the
  exact result, rounded to nearest with ties to even (`roundToFloat64`).
* A Go slice is modelled by the list of the elements visible through it, a Go
  `map[string]string` by its list of key/value pairs.
* `fmt.Println` / `fmt.Printf` calls are recorded as `PrintCall` values: a step
  returns the new state together with the calls it made.
* The worker goroutine of `buildPipeline` receives events one at a time from an
  unbuffered channel; it is modelled by `Pipeline.process`, and a run over the
  events received so far by `Pipeline.run`.  `Worker.step` gives the same
  goroutine statement by statement, under any schedule.
* The loop of `main` is `mainLoop`, over the unread standard input, with the
  float parser as a parameter.
* `addHistoryStepMem` is `addHistoryStep` on slice headers over backing arrays,
  where `append` may write into the array its argument shares.
-/

namespace PipelineDemo

/-! ## float64 -/

/-- A Go `float64` (IEEE 754 binary64).  `finite neg mant exp` denotes
`(-1)^neg * mant * 2^exp`; the values produced by the operations below are in
canonical form (`mant < 2^53`, `-1074 ≤ exp ≤ 971`, and `2^52 ≤ mant` unless
`exp = -1074`). -/
inductive Float64 where
  | nan : Float64
  | inf (neg : Bool) : Float64
  | finite (neg : Bool) (mant : Nat) (exp : Int) : Float64
  deriving DecidableEq, Repr

namespace Float64

/-- Signed zero: `0.0` is `zero false`. -/
def zero (neg : Bool) : Float64 := finite neg 0 (-1074)

/-- The integer nearest to `num / den`, ties to the even one (`den > 0`). -/
def divRoundHalfEven (num den : Nat) : Nat :=
  let q := num / den
  let r := num % den
  if den < 2 * r ∨ (2 * r = den ∧ q % 2 = 1) then q + 1 else q

/-- Number of binary digits of `n` added to `acc`, with `fuel` halvings at most. -/
def bitLengthAux : Nat → Nat → Nat → Nat
  | 0, _, acc => acc
  | fuel + 1, n, acc => if n = 0 then acc else bitLengthAux fuel (n / 2) (acc + 1)

/-- Number of binary digits of `n` (`0` for `0`). -/
def bitLength (n : Nat) : Nat := bitLengthAux n n 0

/-- The integer `t` with `2^t ≤ num / den < 2^(t+1)` (`num, den > 0`). -/
def floorLog2Ratio (num den : Nat) : Int :=
  let t : Int := (bitLength num : Int) - (bitLength den : Int)
  if den * 2 ^ t.toNat ≤ num * 2 ^ (-t).toNat then t else t - 1

/-- Round the exact non-negative rational `num / den` (`den > 0`), with sign
`neg`, to binary64: nearest, ties to even, gradual underflow, overflow to
infinity. -/
def roundToFloat64 (neg : Bool) (num den : Nat) : Float64 :=
  if num = 0 then zero neg
  else
    let e : Int := max (floorLog2Ratio num den - 52) (-1074)
    let q := divRoundHalfEven (num * 2 ^ (-e).toNat) (den * 2 ^ e.toNat)
    let m := if q = 2 ^ 53 then 2 ^ 52 else q
    let e := if q = 2 ^ 53 then e + 1 else e
    if 971 < e then inf neg else finite neg m e

/-- Go's `x + y` on float64. -/
def add : Float64 → Float64 → Float64
  | nan, _ => nan
  | _, nan => nan
  | inf a, inf b => if a = b then inf a else nan
  | inf a, finite _ _ _ => inf a
  | finite _ _ _, inf b => inf b
  | finite s1 m1 e1, finite s2 m2 e2 =>
    let e := min e1 e2
    let a := m1 * 2 ^ (e1 - e).toNat
    let b := m2 * 2 ^ (e2 - e).toNat
    let den := 2 ^ (-e).toNat
    let sc := 2 ^ e.toNat
    if s1 = s2 then roundToFloat64 s1 ((a + b) * sc) den
    else if b < a then roundToFloat64 s1 ((a - b) * sc) den
    else if a < b then roundToFloat64 s2 ((b - a) * sc) den
    else zero false

/-- Go's `x / y` on float64. -/
def div : Float64 → Float64 → Float64
  | nan, _ => nan
  | _, nan => nan
  | inf _, inf _ => nan
  | inf a, finite b _ _ => inf (xor a b)
  | finite a _ _, inf b => zero (xor a b)
  | finite s1 m1 e1, finite s2 m2 e2 =>
    if m2 = 0 then (if m1 = 0 then nan else inf (xor s1 s2))
    else roundToFloat64 (xor s1 s2)
      (m1 * 2 ^ e1.toNat * 2 ^ (-e2).toNat) (m2 * 2 ^ e2.toNat * 2 ^ (-e1).toNat)

/-- Go's conversion `float64(n)` of an `int`. -/
def ofInt (n : Int) : Float64 := roundToFloat64 (decide (n < 0)) n.natAbs 1

/-- Go's `fmt.Sprintf("%.2f", v)`: sign, integer part, point and exactly two
fraction digits of the value rounded to hundredths (ties to even) when `v` is
finite; `NaN`, `+Inf` or `-Inf` otherwise. -/
def sprintf2f : Float64 → String
  | nan => "NaN"
  | inf false => "+Inf"
  | inf true => "-Inf"
  | finite neg m e =>
    let q := divRoundHalfEven (m * 2 ^ e.toNat * 100) (2 ^ (-e).toNat)
    String.mk ((if neg then ['-'] else []) ++ Nat.toDigits 10 (q / 100)
      ++ ['.', Nat.digitChar (q % 100 / 10), Nat.digitChar (q % 10)])

end Float64

/-! ## Data model (`src/main.go`, lines 20-32) -/

/-- A Go `map[string]string`, as the list of its key/value pairs. -/
abbrev StringMap := List (String × String)

/-- Event containing the value to process. -/
structure ValueEvent where
  Value : Float64
  CustomData : StringMap
  deriving DecidableEq, Repr

/-- The current state of a pipeline. -/
structure PipelineState where
  ValueText : String
  History : List ValueEvent
  AnalyserData : StringMap
  deriving DecidableEq, Repr

/-- One call of the `fmt` package made by a step. -/
inductive PrintCall where
  | println (text : String) : PrintCall
  | printf (format : String) (arg : PipelineState) : PrintCall
  deriving DecidableEq, Repr

/-- A step function `func(ValueEvent, PipelineState) PipelineState`: the state
it returns, and the print calls it makes, in order. -/
abbrev Step := ValueEvent → PipelineState → PipelineState × List PrintCall

/-! ## Steps (`src/main.go`, lines 35-80) -/

/-- Step to print the current state. -/
def pringStep (_evt : ValueEvent) (st : PipelineState) : PipelineState × List PrintCall :=
  (st, [PrintCall.println "pring", PrintCall.printf "   %+v\n" st])

/-- Step to store history up to maxDepth items: `append(st.History, evt)`, then,
when the length exceeds `maxDepth`, `append(hst[:0], hst[1:]...)`. -/
def addHistoryStep (maxDepth : Int) (evt : ValueEvent) (st : PipelineState) : PipelineState :=
  let hst := st.History ++ [evt]
  let hst := if maxDepth < (hst.length : Int) then hst.take 0 ++ hst.drop 1 else hst
  { st with History := hst }

/-- The curried `addHistoryStep`, as a step. -/
def mkAddHistoryStep (maxDepth : Int) : Step :=
  fun evt st => (addHistoryStep maxDepth evt st, [])

/-- Step to calculate the average of the stored values. -/
def avgOverHistoryStep (_evt : ValueEvent) (st : PipelineState) : PipelineState × List PrintCall :=
  let v := st.History.foldl (fun v h => Float64.add v h.Value) (Float64.zero false)
  let v := if 0 < st.History.length then Float64.div v (Float64.ofInt st.History.length) else v
  ({ st with ValueText := Float64.sprintf2f v }, [])

/-! ## Pipeline (`src/main.go`, lines 82-100) -/

/-- What the worker goroutine of `buildPipeline` owns: the steps, the current
state, and the print calls made so far. -/
structure Pipeline where
  steps : List Step
  state : PipelineState
  output : List PrintCall

/-- The state a pipeline starts with: `PipelineState{AnalyserData: make(map[string]string)}`. -/
def initialState : PipelineState := { ValueText := "", History := [], AnalyserData := [] }

/-- Build a pipeline. -/
def buildPipeline (_name : String) (steps : List Step) : Pipeline :=
  { steps := steps, state := initialState, output := [] }

/-- The loop `for _, fn := range steps { state = fn(evt, state) }`. -/
def foldSteps (steps : List Step) (evt : ValueEvent) (start : PipelineState × List PrintCall) :
    PipelineState × List PrintCall :=
  steps.foldl (fun acc fn => ((fn evt acc.1).1, acc.2 ++ (fn evt acc.1).2)) start

/-- One iteration of the worker loop: the event received is folded over the state. -/
def Pipeline.process (p : Pipeline) (evt : ValueEvent) : Pipeline :=
  let r := foldSteps p.steps evt (p.state, p.output)
  { p with state := r.1, output := r.2 }

/-- The worker loop over the events received, in the order received. -/
def Pipeline.run (p : Pipeline) (events : List ValueEvent) : Pipeline :=
  events.foldl Pipeline.process p

/-- The pipeline `demo1` of `main`: `mkAddHistoryStep( 2 )`, then the average, then the print. -/
def demo1 : Pipeline :=
  buildPipeline "demo1" [mkAddHistoryStep 2, avgOverHistoryStep, pringStep]


/-! ## Ingestion loop (`src/main.go`, lines 102-123)

Standard input is the list of the characters still unread, a byte of the
source being a character here: the texts `strconv.ParseFloat` accepts are ASCII,
and the byte `'\n'` never lies inside a multi-byte character.  The parser is a
parameter of the loop: `parseFloat s` stands for `strconv.ParseFloat(s, 64)`, an
error carrying its message. -/

/-- The call `reader.ReadString('\n')` on the unread input: the text returned,
through the first newline, or all that is left when there is no newline (the
`io.EOF` case, whose error `main` drops), and the input left unread. -/
def readString : List Char → List Char × List Char
  | [] => ([], [])
  | c :: cs => if c = '\n' then ([c], cs) else (c :: (readString cs).1, (readString cs).2)

/-- The slice expression `text[:len(text)-1]`: `none` when the bound is out of
range, which panics at run time. -/
def sliceBeforeLast (text : List Char) : Option (List Char) :=
  let high : Int := (text.length : Int) - 1
  if 0 ≤ high ∧ high ≤ (text.length : Int) then some (text.take high.toNat) else none

/-- What `main` has done so far: the input left unread, the worker state of the
pipeline `channels["demo1"]`, the events sent to it, the texts handed to
`strconv.ParseFloat`, and the diagnostics printed, each in order. -/
structure MainState where
  stdin : List Char
  demo1 : Pipeline
  submitted : List ValueEvent
  parseCalls : List String
  printed : List String

/-- The state `main` enters its loop with. -/
def mainStart (stdin : List Char) : MainState :=
  { stdin := stdin, demo1 := demo1, submitted := [], parseCalls := [], printed := [] }

/-- One iteration of the `for` loop of `main`; `none` when it panics.  The send
`channels["demo1"] <- ValueEvent{...}` hands the event to the worker, which folds
it over the pipeline state. -/
def mainIteration (parseFloat : String → Except String Float64) (w : MainState) :
    Option MainState :=
  let text := (readString w.stdin).1
  match sliceBeforeLast text with
  | none => none
  | some arg =>
    match parseFloat (String.mk arg) with
    | Except.error err =>
      some { w with
        stdin := (readString w.stdin).2
        parseCalls := w.parseCalls ++ [String.mk arg]
        printed := w.printed ++ ["Error getting float: " ++ err] }
    | Except.ok v =>
      some { w with
        stdin := (readString w.stdin).2
        demo1 := w.demo1.process { Value := v, CustomData := [("val", String.mk text)] }
        submitted := w.submitted ++ [{ Value := v, CustomData := [("val", String.mk text)] }]
        parseCalls := w.parseCalls ++ [String.mk arg] }

/-- How `main` stands after some iterations of its loop: still looping, or
stopped by a panic in the state given. -/
inductive MainOutcome where
  | running (w : MainState) : MainOutcome
  | panicked (w : MainState) : MainOutcome

/-- The state of `main` in an outcome. -/
def MainOutcome.state : MainOutcome → MainState
  | MainOutcome.running w => w
  | MainOutcome.panicked w => w

/-- Whether the outcome is a panic. -/
def MainOutcome.isPanicked : MainOutcome → Bool
  | MainOutcome.running _ => false
  | MainOutcome.panicked _ => true

/-- The loop `for { ... }` of `main`, run for `fuel` iterations at most. -/
def mainLoop (parseFloat : String → Except String Float64) : Nat → MainState → MainOutcome
  | 0, w => MainOutcome.running w
  | fuel + 1, w =>
    match mainIteration parseFloat w with
    | none => MainOutcome.panicked w
    | some w1 => mainLoop parseFloat fuel w1

/-! ### A parser for decimal texts -/

/-- The number a string of decimal digits denotes. -/
def decimalValue (ds : List Char) : Nat := ds.foldl (fun n c => 10 * n + (c.toNat - 48)) 0

/-- The decimal exponent `strconv` reads from a string of digits: digits are no
longer accumulated once the value has reached 10000. -/
def exponentValue (ds : List Char) : Nat :=
  ds.foldl (fun e c => if e < 10000 then e * 10 + (c.toNat - 48) else e) 0

/-- The texts `strconv` reads as infinities and NaN, case ignored. -/
def parseSpecial (cs : List Char) : Option Float64 :=
  let l := String.mk (cs.map Char.toLower)
  if l = "inf" ∨ l = "+inf" ∨ l = "infinity" ∨ l = "+infinity" then some (Float64.inf false)
  else if l = "-inf" ∨ l = "-infinity" then some (Float64.inf true)
  else if l = "nan" then some Float64.nan
  else none

/-- The exponent part of a decimal text, after the mantissa: nothing, or `e` or
`E`, an optional sign and one or more digits.  `none` when it is malformed. -/
def parseExponent : List Char → Option Int
  | [] => some 0
  | c :: cs =>
    if c = 'e' ∨ c = 'E' then
      let digits := match cs with
        | '+' :: r => r
        | '-' :: r => r
        | r => r
      if digits ≠ [] ∧ digits.all Char.isDigit = true then
        some (if cs.head? = some '-' then -(exponentValue digits : Int) else (exponentValue digits : Int))
      else none
    else none

/-- The message of a `strconv.NumError` of `ParseFloat`, the text shown as it is. -/
def parseErrorText (s : String) (why : String) : String :=
  "strconv.ParseFloat: parsing \"" ++ s ++ "\": " ++ why

/-- A model of `strconv.ParseFloat(s, 64)` on decimal texts: an optional sign,
digits with an optional point, an optional decimal exponent, and the texts for
infinity and NaN.  The value is the decimal number rounded to the nearest
float64, ties to even; a number that rounds to an infinity is a range error.
Hexadecimal floats and digit-separating underscores, which `ParseFloat` reads
too, are not modelled and are reported as syntax errors here: the theorems on
the loop hold for every parser, and this one serves to run the loop. -/
def parseDecimal (s : String) : Except String Float64 :=
  match parseSpecial s.data with
  | some v => Except.ok v
  | none =>
    let neg := decide (s.data.head? = some '-')
    let body := if s.data.head? = some '-' ∨ s.data.head? = some '+' then s.data.tail else s.data
    let ip := body.takeWhile Char.isDigit
    let afterInt := body.dropWhile Char.isDigit
    let fp := if afterInt.head? = some '.' then afterInt.tail.takeWhile Char.isDigit else []
    let afterFrac :=
      if afterInt.head? = some '.' then afterInt.tail.dropWhile Char.isDigit else afterInt
    if ip ++ fp = [] then Except.error (parseErrorText s "invalid syntax")
    else
      match parseExponent afterFrac with
      | none => Except.error (parseErrorText s "invalid syntax")
      | some e =>
        let exp10 : Int := e - (fp.length : Int)
        match Float64.roundToFloat64 neg (decimalValue (ip ++ fp) * 10 ^ exp10.toNat)
            (10 ^ (-exp10).toNat) with
        | Float64.inf _ => Except.error (parseErrorText s "value out of range")
        | v => Except.ok v

/-! ## The worker goroutine, step by step (`src/main.go`, lines 84-97)

`chn` is made without a buffer, so a send `chn <- evt` completes only together
with a receive.  The only receive is `evt := <- chn`, at the top of the worker's
loop. -/

/-- Where the worker goroutine stands: blocked at `evt := <- chn`, or inside
`for _, fn := range steps` with the steps still to apply to `evt`. -/
inductive WorkerControl where
  | receiving : WorkerControl
  | folding (evt : ValueEvent) (remaining : List Step) : WorkerControl

/-- The worker goroutine: what it owns and where it stands. -/
structure Worker where
  pipeline : Pipeline
  control : WorkerControl

/-- What happens next in the program: a send on the pipeline's channel meets the
worker's receive, the worker executes its next statement, or another goroutine
runs. -/
inductive Action where
  | send (evt : ValueEvent) : Action
  | work : Action
  | other : Action

/-- The worker `buildPipeline` starts with `go func(){...}()`. -/
def startWorker (name : String) (steps : List Step) : Worker :=
  { pipeline := buildPipeline name steps, control := WorkerControl.receiving }

/-- One action on the worker; `none` when the action cannot happen: a send
while the worker is not at its receive stays blocked, and the worker at its
receive cannot run without a send. -/
def Worker.step (w : Worker) : Action → Option Worker
  | Action.send evt =>
    match w.control with
    | WorkerControl.receiving =>
      some { w with control := WorkerControl.folding evt w.pipeline.steps }
    | WorkerControl.folding _ _ => none
  | Action.work =>
    match w.control with
    | WorkerControl.receiving => none
    | WorkerControl.folding _ [] => some { w with control := WorkerControl.receiving }
    | WorkerControl.folding evt (fn :: rest) =>
      some { pipeline := { w.pipeline with
               state := (fn evt w.pipeline.state).1
               output := w.pipeline.output ++ (fn evt w.pipeline.state).2 }
             control := WorkerControl.folding evt rest }
  | Action.other => some w

/-- A sequence of actions on the worker, in order; `none` when one of them
cannot happen. -/
def Worker.exec (w : Worker) : List Action → Option Worker
  | [] => some w
  | a :: rest =>
    match w.step a with
    | none => none
    | some w1 => w1.exec rest

/-- The events sent on the channel by a sequence of actions, in order. -/
def submittedEvents : List Action → List ValueEvent
  | [] => []
  | Action.send evt :: rest => evt :: submittedEvents rest
  | Action.work :: rest => submittedEvents rest
  | Action.other :: rest => submittedEvents rest

/-- The schedule in which every event is sent as soon as the worker is back at
its receive: the send, then one statement per step, then the end of the loop
over the steps. -/
def promptSchedule (stepCount : Nat) : List ValueEvent → List Action
  | [] => []
  | evt :: rest =>
    Action.send evt :: (List.replicate (stepCount + 1) Action.work ++ promptSchedule stepCount rest)

/-! ## Slices over backing arrays (`append` in `addHistoryStep`, lines 46-50) -/

/-- A Go slice header: the backing array, the index of its first element in
the array, its length and its capacity. -/
structure Slice where
  array : Nat
  offset : Nat
  len : Nat
  cap : Nat
  deriving DecidableEq, Repr

/-- The backing arrays allocated so far, by index. -/
abbrev Heap := List (List ValueEvent)

/-- The zero value of `ValueEvent`, which fresh array cells hold. -/
def zeroEvent : ValueEvent := { Value := Float64.zero false, CustomData := [] }

/-- The `nil` slice. -/
def nilSlice : Slice := { array := 0, offset := 0, len := 0, cap := 0 }

/-- The elements visible through a slice. -/
def Heap.read (h : Heap) (s : Slice) : List ValueEvent :=
  ((h.getD s.array []).drop s.offset).take s.len

/-- A slice that lies within an allocated array, or has no capacity at all. -/
def Heap.wellFormed (h : Heap) (s : Slice) : Prop :=
  s.len ≤ s.cap ∧
  (s.cap = 0 ∨ (s.array < h.length ∧ s.offset + s.cap ≤ (h.getD s.array []).length))

/-- Copy `xs` into the array `array` from index `index` on. -/
def Heap.writeAll (h : Heap) (array index : Nat) (xs : List ValueEvent) : Heap :=
  h.set array ((h.getD array []).take index ++ xs ++ (h.getD array []).drop (index + xs.length))

/-- Go's `append(dst, xs...)`: when the capacity suffices the elements are
written after the length of `dst` in its backing array, else a new array is
allocated, of the capacity `grow` chooses (at least the length needed), and
holds the elements of `dst` and then `xs`. -/
def appendSlice (grow : Nat → Nat → Nat) (h : Heap) (dst : Slice) (xs : List ValueEvent) :
    Heap × Slice :=
  if dst.len + xs.length ≤ dst.cap then
    (h.writeAll dst.array (dst.offset + dst.len) xs, { dst with len := dst.len + xs.length })
  else
    (h ++ [h.read dst ++ xs ++
        List.replicate (max (grow dst.cap (dst.len + xs.length)) (dst.len + xs.length)
          - (dst.len + xs.length)) zeroEvent],
      { array := h.length, offset := 0, len := dst.len + xs.length,
        cap := max (grow dst.cap (dst.len + xs.length)) (dst.len + xs.length) })

/-- The pipeline state as Go holds it: `History` is a slice header. -/
structure PipelineStateMem where
  ValueText : String
  History : Slice
  AnalyserData : StringMap
  deriving DecidableEq, Repr

/-- The state a slice-level state denotes: the history is what its slice shows. -/
def PipelineStateMem.view (h : Heap) (st : PipelineStateMem) : PipelineState :=
  { ValueText := st.ValueText, History := h.read st.History, AnalyserData := st.AnalyserData }

/-- The function `addHistoryStep` on slices: `hst := append( st.History, evt)`,
then, when `len(hst) > maxDepth`, `hst = append( hst[:0], hst[1:]...)`, whose
source elements are read before any is written (the copy is a memmove). -/
def addHistoryStepMem (grow : Nat → Nat → Nat) (maxDepth : Int) (evt : ValueEvent)
    (h : Heap) (st : PipelineStateMem) : Heap × PipelineStateMem :=
  let r1 := appendSlice grow h st.History [evt]
  if maxDepth < (r1.2.len : Int) then
    let r2 := appendSlice grow r1.1 { r1.2 with len := 0 }
      (r1.1.read { array := r1.2.array, offset := r1.2.offset + 1, len := r1.2.len - 1,
                   cap := r1.2.cap - 1 })
    (r2.1, { st with History := r2.2 })
  else (r1.1, { st with History := r1.2 })

/-- The growth of the Go runtime for small slices: the capacity doubles, or is
the length needed when that is more. -/
def doubleGrow (oldCap needed : Nat) : Nat := max (2 * oldCap) needed

/-- The history accumulator run over events from the `nil` slice, on slices. -/
def runAddHistoryMem (grow : Nat → Nat → Nat) (maxDepth : Int) (events : List ValueEvent) :
    Heap × PipelineStateMem :=
  events.foldl (fun acc evt => addHistoryStepMem grow maxDepth evt acc.1 acc.2)
    ([], { ValueText := "", History := nilSlice, AnalyserData := [] })

/-! ## Definitions used to state the properties -/

/-- The last `n` elements of `l`, in their order in `l`. -/
def lastN {α : Type} (n : Nat) (l : List α) : List α := l.drop (l.length - n)

/-- The History Accumulator as the specification words it, on the list after
the append: while the length exceeds `maxDepth`, evict the front element. -/
def evictToDepth (maxDepth : Int) : List ValueEvent → List ValueEvent
  | [] => []
  | x :: xs => if maxDepth < ((x :: xs).length : Int) then evictToDepth maxDepth xs else x :: xs

/-- The History Accumulator as the specification words it: append the event,
then evict from the front until the length equals `maxDepth`. -/
def specAccumulate (maxDepth : Int) (evt : ValueEvent) (history : List ValueEvent) :
    List ValueEvent :=
  evictToDepth maxDepth (history ++ [evt])

/-- The float64 sum `v1 + ... + vm`, accumulated from `0.0`, left to right. -/
def float64Sum (vs : List Float64) : Float64 := vs.foldl Float64.add (Float64.zero false)

/-- The mean as the specification words it: `sum(v_i) / m` in float64 when
`m > 0`, and `0.0` for the empty history. -/
def historyMean (vs : List Float64) : Float64 :=
  if vs.length = 0 then Float64.zero false
  else Float64.div (float64Sum vs) (Float64.ofInt vs.length)

/-- An unsigned fixed-point numeral with exactly two digits after the point:
one or more digits, a point, two digits. -/
def isUnsignedFixedPoint2 (cs : List Char) : Bool :=
  match cs.reverse with
  | d2 :: d1 :: '.' :: ip => d1.isDigit && d2.isDigit && !ip.isEmpty && ip.all Char.isDigit
  | _ => false

/-- A fixed-point numeral with exactly two digits after the decimal point,
with an optional leading minus sign. -/
def isFixedPoint2 (s : String) : Bool :=
  isUnsignedFixedPoint2 (if s.data.head? = some '-' then s.data.tail else s.data)

/-- The event `main` submits for the input line `text` when it parses to the
integer-valued float `n`. -/
def sampleEvent (n : Int) (text : String) : ValueEvent :=
  { Value := Float64.ofInt n, CustomData := [("val", text)] }

/-- The largest finite float64, `math.MaxFloat64` (1.7976931348623157e308). -/
def maxFloat64 : Float64 := Float64.finite false 9007199254740991 971

/-- The heap and the state the accumulator of `demo1` (maxDepth 2) holds after
three events, from the `nil` slice, with the growth of the Go runtime. -/
def memAfterThreeEvents : Heap × PipelineStateMem :=
  runAddHistoryMem doubleGrow 2 [sampleEvent 1 "1\n", sampleEvent 2 "2\n", sampleEvent 3 "3\n"]

/-- A line as the reader returns it with its trailing line terminator removed
and no other character removed, as the specification words the stripping. -/
def stripTerminator (text : List Char) : List Char :=
  if text.getLast? = some '\n' then text.dropLast else text

/-- The event `main` builds for the text read `text` and the value parsed `v`. -/
def lineEvent (v : Float64) (text : List Char) : ValueEvent :=
  { Value := v, CustomData := [("val", String.mk text)] }

/-- The events the specification expects from newline-terminated lines, given
without their terminators: one per line that parses, in order, with the value
parsed and the raw text of the line, terminator included, under the key `val`. -/
def expectedSubmissions (parseFloat : String → Except String Float64) :
    List (List Char) → List ValueEvent
  | [] => []
  | line :: rest =>
    match parseFloat (String.mk line) with
    | Except.ok v => lineEvent v (line ++ ['\n']) :: expectedSubmissions parseFloat rest
    | Except.error _ => expectedSubmissions parseFloat rest

/-- The diagnostics the specification expects from newline-terminated lines:
one per line that fails to parse, in order, naming the parse failure. -/
def expectedDiagnostics (parseFloat : String → Except String Float64) :
    List (List Char) → List String
  | [] => []
  | line :: rest =>
    match parseFloat (String.mk line) with
    | Except.ok _ => expectedDiagnostics parseFloat rest
    | Except.error err => ("Error getting float: " ++ err) :: expectedDiagnostics parseFloat rest

/-- The input stream made of the given lines, each followed by a newline. -/
def joinLines : List (List Char) → List Char
  | [] => []
  | line :: rest => line ++ '\n' :: joinLines rest

/-! ## Lemmas on lists and on the fold -/

theorem lastN_length {α : Type} (n : Nat) (l : List α) : (lastN n l).length = min l.length n := by
  simp [lastN]; omega

theorem lastN_of_le {α : Type} (n : Nat) (l : List α) (h : l.length ≤ n) : lastN n l = l := by
  have h2 : l.length - n = 0 := by omega
  rw [lastN, h2, List.drop_zero]

theorem lastN_snoc_of_lt {α : Type} (n : Nat) (l : List α) (x : α) (h : l.length < n) :
    lastN n (l ++ [x]) = l ++ [x] := by
  have h2 : (l ++ [x]).length - n = 0 := by simp; omega
  rw [lastN, h2, List.drop_zero]

theorem lastN_snoc_of_ge {α : Type} (n : Nat) (l : List α) (x : α) (h : n ≤ l.length) :
    lastN n (l ++ [x]) = (lastN n l ++ [x]).drop 1 := by
  have h1 : (l ++ [x]).length - n = (l.length - n) + 1 := by simp; omega
  have h2 : l.length - n ≤ l.length := by omega
  rw [lastN, lastN, h1, ← List.drop_drop, List.drop_append_of_le_length h2]

theorem evictToDepth_eq_lastN (maxDepth : Int) (h0 : 0 ≤ maxDepth) (l : List ValueEvent) :
    evictToDepth maxDepth l = lastN maxDepth.toNat l := by
  induction l with
  | nil => simp [evictToDepth, lastN]
  | cons x xs ih =>
    unfold evictToDepth
    by_cases h : maxDepth < ((x :: xs).length : Int)
    · rw [if_pos h, ih]
      simp only [List.length_cons, Nat.cast_add, Nat.cast_one] at h
      have h1 : (x :: xs).length - maxDepth.toNat = (xs.length - maxDepth.toNat) + 1 := by
        simp only [List.length_cons]; omega
      rw [lastN, lastN, h1, List.drop_succ_cons]
    · rw [if_neg h]
      simp only [List.length_cons, Nat.cast_add, Nat.cast_one] at h
      exact (lastN_of_le _ _ (by simp only [List.length_cons]; omega)).symm

/-- The state component of the step loop is the left fold of the steps. -/
theorem foldSteps_fst (steps : List Step) (evt : ValueEvent)
    (start : PipelineState × List PrintCall) :
    (foldSteps steps evt start).1 = steps.foldl (fun s fn => (fn evt s).1) start.1 := by
  unfold foldSteps
  induction steps generalizing start with
  | nil => rfl
  | cons f fs ih => simp only [List.foldl_cons]; rw [ih]

theorem process_state (p : Pipeline) (evt : ValueEvent) :
    (p.process evt).state = p.steps.foldl (fun s fn => (fn evt s).1) p.state := by
  simp only [Pipeline.process]
  exact foldSteps_fst p.steps evt (p.state, p.output)

theorem process_steps (p : Pipeline) (evt : ValueEvent) : (p.process evt).steps = p.steps := rfl

theorem run_steps (p : Pipeline) (events : List ValueEvent) : (p.run events).steps = p.steps := by
  unfold Pipeline.run
  induction events generalizing p with
  | nil => rfl
  | cons e es ih => rw [List.foldl_cons, ih, process_steps]

theorem run_snoc (p : Pipeline) (events : List ValueEvent) (evt : ValueEvent) :
    p.run (events ++ [evt]) = (p.run events).process evt := by
  simp [Pipeline.run, List.foldl_append]

/-- Steps that leave the history alone leave it alone when folded. -/
theorem foldl_steps_history (fs : List Step)
    (hfs : ∀ f ∈ fs, ∀ (evt : ValueEvent) (st : PipelineState), (f evt st).1.History = st.History)
    (evt : ValueEvent) (st : PipelineState) :
    (fs.foldl (fun s fn => (fn evt s).1) st).History = st.History := by
  induction fs generalizing st with
  | nil => rfl
  | cons f fs ih =>
    rw [List.foldl_cons, ih (fun g hg => hfs g (List.mem_cons_of_mem f hg))]
    exact hfs f (List.mem_cons_self f fs) evt st

/-! ## Lemmas on the history accumulator -/

/-- What one call of `addHistoryStep` does to the history. -/
theorem addHistoryStep_history (maxDepth : Int) (evt : ValueEvent) (st : PipelineState) :
    (addHistoryStep maxDepth evt st).History =
      if maxDepth < (st.History.length : Int) + 1 then (st.History ++ [evt]).drop 1
      else st.History ++ [evt] := by
  simp [addHistoryStep]

theorem process_history_of_single_accumulator (p : Pipeline) (maxDepth : Int)
    (before after : List Step)
    (hsteps : p.steps = before ++ mkAddHistoryStep maxDepth :: after)
    (hbefore : ∀ f ∈ before, ∀ (evt : ValueEvent) (st : PipelineState),
      (f evt st).1.History = st.History)
    (hafter : ∀ f ∈ after, ∀ (evt : ValueEvent) (st : PipelineState),
      (f evt st).1.History = st.History)
    (evt : ValueEvent) :
    (p.process evt).state.History =
      if maxDepth < (p.state.History.length : Int) + 1 then (p.state.History ++ [evt]).drop 1
      else p.state.History ++ [evt] := by
  rw [process_state, hsteps, List.foldl_append, List.foldl_cons, foldl_steps_history after hafter]
  simp only [mkAddHistoryStep]
  rw [addHistoryStep_history, foldl_steps_history before hbefore]

theorem run_history_of_single_accumulator (maxDepth : Int) (name : String)
    (before after : List Step)
    (hbefore : ∀ f ∈ before, ∀ (evt : ValueEvent) (st : PipelineState),
      (f evt st).1.History = st.History)
    (hafter : ∀ f ∈ after, ∀ (evt : ValueEvent) (st : PipelineState),
      (f evt st).1.History = st.History)
    (events : List ValueEvent) :
    ((buildPipeline name (before ++ mkAddHistoryStep maxDepth :: after)).run events).state.History
      = lastN maxDepth.toNat events := by
  induction events using List.reverseRecOn with
  | nil => simp [lastN, Pipeline.run, buildPipeline, initialState]
  | append_singleton es e ih =>
    rw [run_snoc, process_history_of_single_accumulator _ maxDepth before after
      (by rw [run_steps]; rfl) hbefore hafter, ih, lastN_length]
    by_cases h : es.length < maxDepth.toNat
    · rw [lastN_snoc_of_lt _ _ _ h, lastN_of_le _ _ (Nat.le_of_lt h), if_neg (by omega)]
    · rw [lastN_snoc_of_ge _ _ _ (by omega), if_pos (by omega)]

/-! ## Lemmas on the average and its rendering -/

/-- The text the average step stores depends on the history values only. -/
theorem avgOverHistoryStep_text (evt : ValueEvent) (st : PipelineState) :
    (avgOverHistoryStep evt st).1.ValueText
      = Float64.sprintf2f (historyMean (st.History.map ValueEvent.Value)) := by
  simp only [avgOverHistoryStep, historyMean, float64Sum, List.length_map, List.foldl_map]
  by_cases h : st.History.length = 0
  · simp [List.eq_nil_of_length_eq_zero h]
  · have h2 : 0 < st.History.length := Nat.pos_of_ne_zero h
    simp [h, h2]

theorem digitChar_isDigit (k : Nat) (h : k < 10) : (Nat.digitChar k).isDigit = true := by
  interval_cases k <;> decide

theorem toDigitsCore_digits (fuel n : Nat) (ds : List Char)
    (hds : ∀ c ∈ ds, c.isDigit = true) :
    ∀ c ∈ Nat.toDigitsCore 10 fuel n ds, c.isDigit = true := by
  induction fuel generalizing n ds with
  | zero => simpa [Nat.toDigitsCore] using hds
  | succ f ih =>
    have hd : (Nat.digitChar (n % 10)).isDigit = true :=
      digitChar_isDigit _ (Nat.mod_lt _ (by decide))
    have hcons : ∀ c ∈ Nat.digitChar (n % 10) :: ds, c.isDigit = true := by
      intro c hc
      rcases List.mem_cons.mp hc with h | h
      · rw [h]; exact hd
      · exact hds c h
    unfold Nat.toDigitsCore
    by_cases h0 : n / 10 = 0
    · simpa [h0] using hcons
    · simp only [h0, if_false]
      exact ih _ _ hcons

theorem toDigitsCore_ne_nil (fuel n : Nat) (ds : List Char) (h : ds ≠ [] ∨ 0 < fuel) :
    Nat.toDigitsCore 10 fuel n ds ≠ [] := by
  induction fuel generalizing n ds with
  | zero =>
    rcases h with h | h
    · simpa [Nat.toDigitsCore] using h
    · omega
  | succ f ih =>
    unfold Nat.toDigitsCore
    by_cases h0 : n / 10 = 0
    · simp [h0]
    · simp only [h0, if_false]
      exact ih _ _ (Or.inl (List.cons_ne_nil _ _))

theorem toDigits_digits (n : Nat) : ∀ c ∈ Nat.toDigits 10 n, c.isDigit = true :=
  toDigitsCore_digits _ _ [] (by simp)

theorem toDigits_ne_nil (n : Nat) : Nat.toDigits 10 n ≠ [] :=
  toDigitsCore_ne_nil _ _ [] (Or.inr (Nat.succ_pos n))

theorem isUnsignedFixedPoint2_render (ip : List Char) (a b : Char)
    (hip : ∀ c ∈ ip, c.isDigit = true) (hne : ip ≠ [])
    (ha : a.isDigit = true) (hb : b.isDigit = true) :
    isUnsignedFixedPoint2 (ip ++ ['.', a, b]) = true := by
  simp only [isUnsignedFixedPoint2, List.reverse_append, List.reverse_cons, List.reverse_nil,
    List.nil_append, List.cons_append, ha, hb, Bool.and_self, Bool.true_and, Bool.and_eq_true,
    Bool.not_eq_true', List.isEmpty_eq_false, List.all_eq_true, List.mem_reverse]
  exact ⟨by simpa using hne, hip⟩

theorem isFixedPoint2_render (neg : Bool) (ip : List Char) (a b : Char)
    (hip : ∀ c ∈ ip, c.isDigit = true) (hne : ip ≠ [])
    (ha : a.isDigit = true) (hb : b.isDigit = true) :
    isFixedPoint2 (String.mk ((if neg then ['-'] else []) ++ ip ++ ['.', a, b])) = true := by
  have key := isUnsignedFixedPoint2_render ip a b hip hne ha hb
  cases ip with
  | nil => exact absurd rfl hne
  | cons c cs =>
    have hc : c ≠ '-' := by
      intro h
      have := hip c (List.mem_cons_self c cs)
      rw [h] at this
      exact absurd this (by decide)
    cases neg with
    | true => simpa [isFixedPoint2] using key
    | false => simpa [isFixedPoint2, hc] using key

/-- The float64 values 1.0, 2.0 and 3.0, as `float64(n)` gives them:
`2^52 * 2^-52`, `2^52 * 2^-51` and `3 * 2^51 * 2^-51`. -/
theorem ofInt_small_values :
    Float64.ofInt 1 = Float64.finite false 4503599627370496 (-52) ∧
    Float64.ofInt 2 = Float64.finite false 4503599627370496 (-51) ∧
    Float64.ofInt 3 = Float64.finite false 6755399441055744 (-51) := by
  decide!

/-- The rendering of a finite float64 has exactly two digits after the point. -/
theorem sprintf2f_finite_isFixedPoint2 (neg : Bool) (m : Nat) (e : Int) :
    isFixedPoint2 (Float64.sprintf2f (Float64.finite neg m e)) = true := by
  simp only [Float64.sprintf2f]
  exact isFixedPoint2_render neg _ _ _ (toDigits_digits _) (toDigits_ne_nil _)
    (digitChar_isDigit _ (by omega)) (digitChar_isDigit _ (by omega))

/-! ## The claims -/

/-- C1: history bound invariant.  For every maxDepth `k >= 0` and every sequence
of `N` events processed in order, from the initial empty state, by a pipeline
whose steps are `mkAddHistoryStep k` together with steps that leave the history
alone (listed before or after it), the final history has length `min N k` and is
the last `min N k` events submitted, in arrival order. -/
theorem history_bound_invariant (maxDepth : Int) (_hk : 0 ≤ maxDepth) (name : String)
    (before after : List Step)
    (hbefore : ∀ f ∈ before, ∀ (evt : ValueEvent) (st : PipelineState),
      (f evt st).1.History = st.History)
    (hafter : ∀ f ∈ after, ∀ (evt : ValueEvent) (st : PipelineState),
      (f evt st).1.History = st.History)
    (events : List ValueEvent) :
    ((buildPipeline name (before ++ mkAddHistoryStep maxDepth :: after)).run
        events).state.History.length
      = min events.length maxDepth.toNat ∧
    ((buildPipeline name (before ++ mkAddHistoryStep maxDepth :: after)).run events).state.History
      = events.drop (events.length - min events.length maxDepth.toNat) := by
  rw [run_history_of_single_accumulator maxDepth name before after hbefore hafter events]
  refine ⟨lastN_length _ _, ?_⟩
  unfold lastN
  congr 1
  omega

/-- C1 at the pipeline of `main` (maxDepth 2, average and print after the
accumulator) and three events: the history ends as the last two of them. -/
theorem history_bound_invariant_witness :
    0 ≤ (2 : Int) ∧
    ((buildPipeline "demo1" ([] ++ mkAddHistoryStep 2 :: [avgOverHistoryStep, pringStep])).run
        [sampleEvent 1 "1\n", sampleEvent 2 "2\n", sampleEvent 3 "3\n"]).state.History.length
      = min [sampleEvent 1 "1\n", sampleEvent 2 "2\n", sampleEvent 3 "3\n"].length
          (2 : Int).toNat ∧
    ((buildPipeline "demo1" ([] ++ mkAddHistoryStep 2 :: [avgOverHistoryStep, pringStep])).run
        [sampleEvent 1 "1\n", sampleEvent 2 "2\n", sampleEvent 3 "3\n"]).state.History
      = [sampleEvent 2 "2\n", sampleEvent 3 "3\n"] :=
  ⟨by decide, history_bound_invariant 2 (by decide) "demo1" [] [avgOverHistoryStep, pringStep]
    (fun f hf => absurd hf (List.not_mem_nil f))
    (fun f hf evt st => by
      rcases List.mem_cons.mp hf with h | h
      · rw [h]; rfl
      · rw [List.mem_singleton.mp h]; rfl)
    [sampleEvent 1 "1\n", sampleEvent 2 "2\n", sampleEvent 3 "3\n"]⟩

/-- C2: fold order.  The state the worker stores after processing `evt` with
steps `[A, B, C]` from state `s` is `C(evt, B(evt, A(evt, s)))`; for every step
list it is the left fold of the steps over `s`, each step given the same `evt`. -/
theorem fold_order (evt : ValueEvent) (s : PipelineState) (out : List PrintCall) :
    (∀ A B C : Step,
      (Pipeline.process { steps := [A, B, C], state := s, output := out } evt).state
        = (C evt (B evt (A evt s).1).1).1) ∧
    (∀ steps : List Step,
      (Pipeline.process { steps := steps, state := s, output := out } evt).state
        = steps.foldl (fun st fn => (fn evt st).1) s) :=
  ⟨fun _ _ _ => process_state _ evt, fun _ => process_state _ evt⟩

/-- C3, as amended: the text `avgOverHistoryStep` stores is the `%.2f` rendering
of the float64 mean of the history values (the sum accumulated from `0.0` left
to right, divided by `float64(m)`).  It is `"0.00"` for the empty history; it is
a fixed-point numeral with exactly two digits after the point whenever that mean
is finite, and `NaN`, `+Inf` or `-Inf` when it is not; the event argument does
not influence it. -/
theorem avgOverHistoryStep_valueText (evt : ValueEvent) (st : PipelineState) :
    (avgOverHistoryStep evt st).1.ValueText
      = Float64.sprintf2f (historyMean (st.History.map ValueEvent.Value)) ∧
    (st.History = [] → (avgOverHistoryStep evt st).1.ValueText = "0.00") ∧
    (∀ (neg : Bool) (m : Nat) (e : Int),
      historyMean (st.History.map ValueEvent.Value) = Float64.finite neg m e →
      isFixedPoint2 (avgOverHistoryStep evt st).1.ValueText = true) ∧
    (historyMean (st.History.map ValueEvent.Value) = Float64.nan →
      (avgOverHistoryStep evt st).1.ValueText = "NaN") ∧
    (∀ neg : Bool, historyMean (st.History.map ValueEvent.Value) = Float64.inf neg →
      (avgOverHistoryStep evt st).1.ValueText = if neg then "-Inf" else "+Inf") ∧
    (∀ other : ValueEvent,
      (avgOverHistoryStep other st).1.ValueText = (avgOverHistoryStep evt st).1.ValueText) := by
  refine ⟨avgOverHistoryStep_text evt st, ?_, ?_, ?_, ?_, ?_⟩
  · intro h
    rw [avgOverHistoryStep_text, h]
    decide!
  · intro neg m e h
    rw [avgOverHistoryStep_text, h]
    exact sprintf2f_finite_isFixedPoint2 neg m e
  · intro h
    rw [avgOverHistoryStep_text, h]
    rfl
  · intro neg h
    rw [avgOverHistoryStep_text, h]
    cases neg <;> rfl
  · intro other
    rfl

/-- C3 as stated fails: with the history holding `math.MaxFloat64` twice, both
finite, the float64 sum overflows and the text stored is `+Inf`, which is not a
fixed-point numeral with two digits after the point. -/
theorem avgOverHistoryStep_overflow_text :
    (avgOverHistoryStep (sampleEvent 0 "0\n")
      { ValueText := "", History := [⟨maxFloat64, []⟩, ⟨maxFloat64, []⟩],
        AnalyserData := [] }).1.ValueText = "+Inf" ∧
    isFixedPoint2 (avgOverHistoryStep (sampleEvent 0 "0\n")
      { ValueText := "", History := [⟨maxFloat64, []⟩, ⟨maxFloat64, []⟩],
        AnalyserData := [] }).1.ValueText = false := by
  decide!

/-- C4, as amended: for every maxDepth, event and state whose history is within
the bound (`len(st.History) <= maxDepth`, hence `maxDepth >= 0`), the history
`addHistoryStep` returns is that of the specification (append, then evict from
the front until the length equals maxDepth), that is, the last `maxDepth`
elements of `st.History ++ [evt]`. -/
theorem addHistoryStep_within_bound (maxDepth : Int) (evt : ValueEvent) (st : PipelineState)
    (hlen : (st.History.length : Int) ≤ maxDepth) :
    (addHistoryStep maxDepth evt st).History = specAccumulate maxDepth evt st.History ∧
    (addHistoryStep maxDepth evt st).History = lastN maxDepth.toNat (st.History ++ [evt]) := by
  have h0 : 0 ≤ maxDepth := le_trans (Int.ofNat_nonneg _) hlen
  rw [specAccumulate, evictToDepth_eq_lastN maxDepth h0, and_self, addHistoryStep_history]
  by_cases h : st.History.length < maxDepth.toNat
  · rw [if_neg (by omega), lastN_snoc_of_lt _ _ _ h]
  · rw [if_pos (by omega), lastN_snoc_of_ge _ _ _ (by omega), lastN_of_le _ _ (by omega)]

/-- C4 amended, at maxDepth 2 and a history of two events. -/
theorem addHistoryStep_within_bound_witness :
    ((PipelineState.mk "" [sampleEvent 1 "1\n", sampleEvent 2 "2\n"] []).History.length : Int)
      ≤ 2 ∧
    (addHistoryStep 2 (sampleEvent 3 "3\n")
        (PipelineState.mk "" [sampleEvent 1 "1\n", sampleEvent 2 "2\n"] [])).History
      = specAccumulate 2 (sampleEvent 3 "3\n")
          (PipelineState.mk "" [sampleEvent 1 "1\n", sampleEvent 2 "2\n"] []).History ∧
    (addHistoryStep 2 (sampleEvent 3 "3\n")
        (PipelineState.mk "" [sampleEvent 1 "1\n", sampleEvent 2 "2\n"] [])).History
      = lastN (2 : Int).toNat
          ((PipelineState.mk "" [sampleEvent 1 "1\n", sampleEvent 2 "2\n"] []).History
            ++ [sampleEvent 3 "3\n"]) :=
  ⟨by decide, addHistoryStep_within_bound 2 (sampleEvent 3 "3\n")
    (PipelineState.mk "" [sampleEvent 1 "1\n", sampleEvent 2 "2\n"] []) (by decide)⟩

/-- C4 as stated fails: with maxDepth 1, a state holding three events and a
fourth event, `addHistoryStep` evicts one element only and returns the last
three events, where the specification keeps the last one. -/
theorem addHistoryStep_evicts_only_one :
    (addHistoryStep 1 (sampleEvent 4 "4\n")
        (PipelineState.mk "" [sampleEvent 1 "1\n", sampleEvent 2 "2\n", sampleEvent 3 "3\n"]
          [])).History
      = [sampleEvent 2 "2\n", sampleEvent 3 "3\n", sampleEvent 4 "4\n"] ∧
    specAccumulate 1 (sampleEvent 4 "4\n")
        [sampleEvent 1 "1\n", sampleEvent 2 "2\n", sampleEvent 3 "3\n"]
      = [sampleEvent 4 "4\n"] ∧
    (addHistoryStep 1 (sampleEvent 4 "4\n")
        (PipelineState.mk "" [sampleEvent 1 "1\n", sampleEvent 2 "2\n", sampleEvent 3 "3\n"]
          [])).History
      ≠ specAccumulate 1 (sampleEvent 4 "4\n")
          [sampleEvent 1 "1\n", sampleEvent 2 "2\n", sampleEvent 3 "3\n"] := by
  decide!

/-- C5: the concrete scenario.  The pipeline of `main` (maxDepth 2, then the
average, then the print), fed events with values 1.0, 2.0, 3.0 from the initial
state, has history values `[1.0]` and text `"1.00"` after the first event,
`[1.0, 2.0]` and `"1.50"` after the second, `[2.0, 3.0]` and `"2.50"` after the
third, whatever the events carry as custom data. -/
theorem demo1_scenario (c1 c2 c3 : StringMap) :
    ((demo1.run [⟨Float64.ofInt 1, c1⟩]).state.History.map ValueEvent.Value = [Float64.ofInt 1] ∧
      (demo1.run [⟨Float64.ofInt 1, c1⟩]).state.ValueText = "1.00") ∧
    ((demo1.run [⟨Float64.ofInt 1, c1⟩, ⟨Float64.ofInt 2, c2⟩]).state.History.map ValueEvent.Value
        = [Float64.ofInt 1, Float64.ofInt 2] ∧
      (demo1.run [⟨Float64.ofInt 1, c1⟩, ⟨Float64.ofInt 2, c2⟩]).state.ValueText = "1.50") ∧
    ((demo1.run [⟨Float64.ofInt 1, c1⟩, ⟨Float64.ofInt 2, c2⟩,
        ⟨Float64.ofInt 3, c3⟩]).state.History.map ValueEvent.Value
        = [Float64.ofInt 2, Float64.ofInt 3] ∧
      (demo1.run [⟨Float64.ofInt 1, c1⟩, ⟨Float64.ofInt 2, c2⟩,
        ⟨Float64.ofInt 3, c3⟩]).state.ValueText = "2.50") := by
  have t1 : Float64.sprintf2f (historyMean [Float64.ofInt 1]) = "1.00" := by decide!
  have t2 : Float64.sprintf2f (historyMean [Float64.ofInt 1, Float64.ofInt 2]) = "1.50" := by
    decide!
  have t3 : Float64.sprintf2f (historyMean [Float64.ofInt 2, Float64.ofInt 3]) = "2.50" := by
    decide!
  refine ⟨⟨rfl, ?_⟩, ⟨rfl, ?_⟩, ⟨rfl, ?_⟩⟩
  · exact (avgOverHistoryStep_text ⟨Float64.ofInt 1, c1⟩ _).trans t1
  · exact (avgOverHistoryStep_text ⟨Float64.ofInt 2, c2⟩ _).trans t2
  · exact (avgOverHistoryStep_text ⟨Float64.ofInt 3, c3⟩ _).trans t3

/-- C6: the print step is the identity on the state.  `pringStep(evt, st)`
returns a state equal to `st`, in each of its fields, and applying it any number
of times to a state returns that state. -/
theorem pringStep_identity (evt : ValueEvent) (st : PipelineState) (n : Nat) :
    (pringStep evt st).1 = st ∧
    (pringStep evt st).1.ValueText = st.ValueText ∧
    (pringStep evt st).1.History = st.History ∧
    (pringStep evt st).1.AnalyserData = st.AnalyserData ∧
    (fun s => (pringStep evt s).1)^[n] st = st := by
  refine ⟨rfl, rfl, rfl, rfl, ?_⟩
  induction n with
  | zero => rfl
  | succ k ih => rw [Function.iterate_succ_apply]; exact ih

/-- C7: the accumulator preserves the history bound.  When
`len(st.History) <= maxDepth`, the state `addHistoryStep(maxDepth, evt, st)`
returns has `len(History) <= maxDepth`. -/
theorem addHistoryStep_preserves_bound (maxDepth : Int) (evt : ValueEvent) (st : PipelineState)
    (hlen : (st.History.length : Int) ≤ maxDepth) :
    ((addHistoryStep maxDepth evt st).History.length : Int) ≤ maxDepth := by
  rw [addHistoryStep_history]
  split
  · simp only [List.length_drop, List.length_append, List.length_singleton]; omega
  · simp only [List.length_append, List.length_singleton]; push_cast; omega

/-- C7 at maxDepth 2 and a full history of two events. -/
theorem addHistoryStep_preserves_bound_witness :
    ((PipelineState.mk "" [sampleEvent 1 "1\n", sampleEvent 2 "2\n"] []).History.length : Int)
      ≤ 2 ∧
    ((addHistoryStep 2 (sampleEvent 3 "3\n")
        (PipelineState.mk "" [sampleEvent 1 "1\n", sampleEvent 2 "2\n"] [])).History.length : Int)
      ≤ 2 :=
  ⟨by decide, addHistoryStep_preserves_bound 2 (sampleEvent 3 "3\n")
    (PipelineState.mk "" [sampleEvent 1 "1\n", sampleEvent 2 "2\n"] []) (by decide)⟩

/-- C8: accumulator frame.  The state `addHistoryStep(maxDepth, evt, st)`
returns has the ValueText and the AnalyserData of `st`, also through the step
built by `mkAddHistoryStep`. -/
theorem addHistoryStep_frame (maxDepth : Int) (evt : ValueEvent) (st : PipelineState) :
    (addHistoryStep maxDepth evt st).ValueText = st.ValueText ∧
    (addHistoryStep maxDepth evt st).AnalyserData = st.AnalyserData ∧
    (mkAddHistoryStep maxDepth evt st).1.ValueText = st.ValueText ∧
    (mkAddHistoryStep maxDepth evt st).1.AnalyserData = st.AnalyserData :=
  ⟨rfl, rfl, rfl, rfl⟩

/-- C9: average frame.  The state `avgOverHistoryStep(evt, st)` returns has the
History of `st`, the same events in the same order, and its AnalyserData. -/
theorem avgOverHistoryStep_frame (evt : ValueEvent) (st : PipelineState) :
    (avgOverHistoryStep evt st).1.History = st.History ∧
    (avgOverHistoryStep evt st).1.AnalyserData = st.AnalyserData :=
  ⟨rfl, rfl⟩

/-- C10: step order sensitivity.  Folding an event through the average and then
the accumulator stores the average of the history without the event; through
the accumulator and then the average, the average of the history the accumulator
returns, which holds the event after the old history whenever the old history
is shorter than maxDepth.  From the initial state with maxDepth 2 and value 1.0
the two texts differ: `"0.00"` against `"1.00"`. -/
theorem step_order_sensitivity :
    (∀ (maxDepth : Int) (evt : ValueEvent) (st : PipelineState),
      (foldSteps [avgOverHistoryStep, mkAddHistoryStep maxDepth] evt (st, [])).1.ValueText
        = Float64.sprintf2f (historyMean (st.History.map ValueEvent.Value)) ∧
      (foldSteps [mkAddHistoryStep maxDepth, avgOverHistoryStep] evt (st, [])).1.ValueText
        = Float64.sprintf2f
            (historyMean ((addHistoryStep maxDepth evt st).History.map ValueEvent.Value)) ∧
      ((st.History.length : Int) < maxDepth →
        (foldSteps [mkAddHistoryStep maxDepth, avgOverHistoryStep] evt (st, [])).1.ValueText
          = Float64.sprintf2f (historyMean ((st.History ++ [evt]).map ValueEvent.Value)))) ∧
    (∃ (maxDepth : Int) (evt : ValueEvent) (st : PipelineState),
      maxDepth = 2 ∧ evt.Value = Float64.ofInt 1 ∧ st = initialState ∧
      (foldSteps [avgOverHistoryStep, mkAddHistoryStep maxDepth] evt (st, [])).1.ValueText
        = "0.00" ∧
      (foldSteps [mkAddHistoryStep maxDepth, avgOverHistoryStep] evt (st, [])).1.ValueText
        = "1.00" ∧
      (foldSteps [avgOverHistoryStep, mkAddHistoryStep maxDepth] evt (st, [])).1.ValueText
        ≠ (foldSteps [mkAddHistoryStep maxDepth, avgOverHistoryStep] evt (st, [])).1.ValueText) := by
  refine ⟨fun maxDepth evt st => ⟨avgOverHistoryStep_text evt st,
    avgOverHistoryStep_text evt (addHistoryStep maxDepth evt st), fun hlt => ?_⟩, ?_⟩
  · have h := avgOverHistoryStep_text evt (addHistoryStep maxDepth evt st)
    rw [addHistoryStep_history, if_neg (by omega)] at h
    exact h
  · exact ⟨2, sampleEvent 1 "1\n", initialState, by decide!⟩

/-! ## Lemmas on the ingestion loop -/

theorem readString_line (line rest : List Char) (hline : '\n' ∉ line) :
    readString (line ++ '\n' :: rest) = (line ++ ['\n'], rest) := by
  induction line with
  | nil => simp [readString]
  | cons c cs ih =>
    have hc : c ≠ '\n' := fun h => hline (by rw [h]; exact List.mem_cons_self _ _)
    have hcs : '\n' ∉ cs := fun h => hline (List.mem_cons_of_mem _ h)
    simp [readString, hc, ih hcs]

theorem readString_length (input : List Char) :
    (readString input).1.length + (readString input).2.length = input.length := by
  induction input with
  | nil => rfl
  | cons c cs ih =>
    unfold readString
    by_cases hc : c = '\n'
    · simp only [hc, if_true, List.length_cons, List.length_nil]; omega
    · simp only [hc, if_false, List.length_cons]; omega

theorem readString_ne_nil (c : Char) (cs : List Char) : (readString (c :: cs)).1 ≠ [] := by
  unfold readString
  by_cases hc : c = '\n' <;> simp [hc]

theorem sliceBeforeLast_nil : sliceBeforeLast [] = none := by
  decide

theorem sliceBeforeLast_of_ne_nil (text : List Char) (h : text ≠ []) :
    sliceBeforeLast text = some text.dropLast := by
  have hlen : 0 < text.length := List.length_pos.mpr h
  unfold sliceBeforeLast
  have h1 : (0 : Int) ≤ (text.length : Int) - 1 ∧ (text.length : Int) - 1 ≤ (text.length : Int) := by
    omega
  simp only [h1, and_self, if_true]
  have h2 : ((text.length : Int) - 1).toNat = text.length - 1 := by omega
  rw [h2, List.dropLast_eq_take]

theorem sliceBeforeLast_snoc (line : List Char) (c : Char) :
    sliceBeforeLast (line ++ [c]) = some line := by
  rw [sliceBeforeLast_of_ne_nil _ (by simp), List.dropLast_concat]

/-- One iteration on an input that starts with a newline-terminated line. -/
theorem mainIteration_line (parseFloat : String → Except String Float64) (w : MainState)
    (line rest : List Char) (hline : '\n' ∉ line) (hw : w.stdin = line ++ '\n' :: rest) :
    mainIteration parseFloat w =
      match parseFloat (String.mk line) with
      | Except.error err =>
        some { w with
          stdin := rest
          parseCalls := w.parseCalls ++ [String.mk line]
          printed := w.printed ++ ["Error getting float: " ++ err] }
      | Except.ok v =>
        some { w with
          stdin := rest
          demo1 := w.demo1.process (lineEvent v (line ++ ['\n']))
          submitted := w.submitted ++ [lineEvent v (line ++ ['\n'])]
          parseCalls := w.parseCalls ++ [String.mk line] } := by
  unfold mainIteration
  simp only [hw, readString_line line rest hline, sliceBeforeLast_snoc]
  cases parseFloat (String.mk line) <;> rfl

/-- The loop over newline-terminated lines, from any state. -/
theorem mainLoop_lines (parseFloat : String → Except String Float64) (lines : List (List Char))
    (hlines : ∀ line ∈ lines, '\n' ∉ line) (rest : List Char) (w : MainState)
    (hw : w.stdin = joinLines lines ++ rest) :
    mainLoop parseFloat lines.length w = MainOutcome.running
      { stdin := rest
        demo1 := w.demo1.run (expectedSubmissions parseFloat lines)
        submitted := w.submitted ++ expectedSubmissions parseFloat lines
        parseCalls := w.parseCalls ++ lines.map String.mk
        printed := w.printed ++ expectedDiagnostics parseFloat lines } := by
  induction lines generalizing w with
  | nil =>
    simp only [joinLines, List.nil_append] at hw
    simp [mainLoop, expectedSubmissions, expectedDiagnostics, Pipeline.run, ← hw]
  | cons line more ih =>
    have hline : '\n' ∉ line := hlines line (List.mem_cons_self _ _)
    have hmore : ∀ l ∈ more, '\n' ∉ l := fun l hl => hlines l (List.mem_cons_of_mem _ hl)
    have hw1 : w.stdin = line ++ '\n' :: (joinLines more ++ rest) := by
      rw [hw]; simp [joinLines]
    have hit := mainIteration_line parseFloat w line (joinLines more ++ rest) hline hw1
    simp only [List.length_cons, mainLoop, expectedSubmissions, expectedDiagnostics, List.map_cons]
    cases hp : parseFloat (String.mk line) with
    | error err =>
      rw [hp] at hit
      simp only [hit]
      rw [ih hmore _ rfl]
      simp
    | ok v =>
      rw [hp] at hit
      simp only [hit]
      rw [ih hmore _ rfl]
      simp [Pipeline.run]

/-- Every iteration on a non-empty input consumes some of it. -/
theorem mainIteration_stdin_lt (parseFloat : String → Except String Float64) (w w1 : MainState)
    (h : mainIteration parseFloat w = some w1) : w1.stdin.length < w.stdin.length := by
  have hlen := readString_length w.stdin
  cases hs : w.stdin with
  | nil =>
    simp only [mainIteration, hs, readString, sliceBeforeLast_nil] at h
    exact absurd h (by simp)
  | cons c cs =>
    have hne := readString_ne_nil c cs
    have hpos : 0 < (readString (c :: cs)).1.length := List.length_pos.mpr hne
    rw [hs] at hlen
    simp only [mainIteration, hs, sliceBeforeLast_of_ne_nil _ hne] at h
    cases hp : parseFloat (String.mk (readString (c :: cs)).1.dropLast) with
    | error err =>
      rw [hp] at h
      simp only [Option.some.injEq] at h
      rw [← h]
      simp only [List.length_cons] at hlen ⊢
      omega
    | ok v =>
      rw [hp] at h
      simp only [Option.some.injEq] at h
      rw [← h]
      simp only [List.length_cons] at hlen ⊢
      omega

/-- The loop panics within as many iterations as the input has characters, plus one. -/
theorem mainLoop_panics (parseFloat : String → Except String Float64) (fuel : Nat)
    (w : MainState) (h : w.stdin.length < fuel) :
    (mainLoop parseFloat fuel w).isPanicked = true := by
  induction fuel generalizing w with
  | zero => omega
  | succ n ih =>
    unfold mainLoop
    cases hit : mainIteration parseFloat w with
    | none => rfl
    | some w1 =>
      have := mainIteration_stdin_lt parseFloat w w1 hit
      exact ih w1 (by omega)

/-- Iterations add up: the loop goes on from where it stands, and stays stopped
once it has panicked. -/
theorem mainLoop_add (parseFloat : String → Except String Float64) (n m : Nat) (w : MainState) :
    mainLoop parseFloat (n + m) w =
      match mainLoop parseFloat n w with
      | MainOutcome.running w1 => mainLoop parseFloat m w1
      | MainOutcome.panicked w1 => MainOutcome.panicked w1 := by
  induction n generalizing w with
  | zero => simp [mainLoop]
  | succ k ih =>
    rw [Nat.succ_add]
    simp only [mainLoop]
    cases mainIteration parseFloat w with
    | none => rfl
    | some w1 => exact ih w1

/-- At end of input the loop does nothing more: it stands, or panics, in the
state it is in. -/
theorem mainLoop_end_of_input (parseFloat : String → Except String Float64) (n : Nat)
    (w : MainState) (h : w.stdin = []) : (mainLoop parseFloat n w).state = w := by
  cases n with
  | zero => rfl
  | succ k =>
    have hit : mainIteration parseFloat w = none := by
      simp [mainIteration, h, readString, sliceBeforeLast_nil]
    simp [mainLoop, hit, MainOutcome.state]

/-! ## Lemmas on the worker goroutine -/

theorem exec_append (w : Worker) (as bs : List Action) :
    w.exec (as ++ bs) = (w.exec as).bind (fun w1 => w1.exec bs) := by
  induction as generalizing w with
  | nil => rfl
  | cons a rest ih =>
    simp only [List.cons_append, Worker.exec]
    cases w.step a with
    | none => rfl
    | some w1 => exact ih w1

theorem submittedEvents_append (as bs : List Action) :
    submittedEvents (as ++ bs) = submittedEvents as ++ submittedEvents bs := by
  induction as with
  | nil => rfl
  | cons a rest ih => cases a <;> simp [submittedEvents, ih]

theorem run_snoc_fields (p : Pipeline) (events : List ValueEvent) (evt : ValueEvent) :
    p.run (events ++ [evt]) =
      { steps := p.steps
        state := (foldSteps p.steps evt ((p.run events).state, (p.run events).output)).1
        output := (foldSteps p.steps evt ((p.run events).state, (p.run events).output)).2 } := by
  rw [run_snoc]
  simp only [Pipeline.process, run_steps]

/-- What the worker holds under any sequence of actions: at its receive, the
fold over all the events sent; inside the loop over the steps, the fold of the
steps done over the fold of the events sent before the current one. -/
theorem exec_invariant (name : String) (steps : List Step) (acts : List Action) (w : Worker)
    (h : (startWorker name steps).exec acts = some w) :
    w.pipeline.steps = steps ∧
    ((w.control = WorkerControl.receiving ∧
        w.pipeline = (buildPipeline name steps).run (submittedEvents acts)) ∨
      (∃ (evt : ValueEvent) (prev : List ValueEvent) (done rest : List Step),
        w.control = WorkerControl.folding evt rest ∧
        submittedEvents acts = prev ++ [evt] ∧ steps = done ++ rest ∧
        (w.pipeline.state, w.pipeline.output) = foldSteps done evt
          (((buildPipeline name steps).run prev).state,
            ((buildPipeline name steps).run prev).output))) := by
  induction acts using List.reverseRecOn generalizing w with
  | nil =>
    simp only [Worker.exec, Option.some.injEq] at h
    subst h
    exact ⟨rfl, Or.inl ⟨rfl, rfl⟩⟩
  | append_singleton as a ih =>
    rw [exec_append] at h
    cases h0 : (startWorker name steps).exec as with
    | none => rw [h0] at h; exact absurd h (by simp)
    | some w0 =>
      rw [h0] at h
      simp only [Option.bind, Worker.exec] at h
      obtain ⟨hsteps, hinv⟩ := ih w0 h0
      rw [submittedEvents_append]
      cases a with
      | other =>
        simp only [Worker.step, Option.some.injEq] at h
        subst h
        simpa [submittedEvents] using And.intro hsteps hinv
      | send evt =>
        rcases hinv with ⟨hc, hp⟩ | ⟨e, prev, done, rest, hc, _, _, _⟩
        · simp only [Worker.step, hc, Option.some.injEq] at h
          subst h
          refine ⟨hsteps, Or.inr ⟨evt, submittedEvents as, [], steps, ?_, rfl, rfl, ?_⟩⟩
          · simp [hsteps]
          · simp [foldSteps, hp]
        · simp [Worker.step, hc] at h
      | work =>
        rcases hinv with ⟨hc, _⟩ | ⟨e, prev, done, rest, hc, hsub, hsplit, hfold⟩
        · simp [Worker.step, hc] at h
        · cases rest with
          | nil =>
            simp only [Worker.step, hc, Option.some.injEq] at h
            subst h
            refine ⟨hsteps, Or.inl ⟨rfl, ?_⟩⟩
            simp only [submittedEvents, List.append_nil] at hsub hsplit ⊢
            rw [hsub, run_snoc_fields]
            subst hsplit
            have h1 := congrArg Prod.fst hfold
            have h2 := congrArg Prod.snd hfold
            simp only at h1 h2
            cases hw : w0.pipeline with
            | mk s st out =>
              rw [hw] at h1 h2 hsteps
              simp only at h1 h2 hsteps
              simp only [buildPipeline, Pipeline.mk.injEq]
              exact ⟨hsteps, h1, h2⟩
          | cons fn rest =>
            simp only [Worker.step, hc, Option.some.injEq] at h
            subst h
            refine ⟨hsteps, Or.inr ⟨e, prev, done ++ [fn], rest, rfl, ?_, ?_, ?_⟩⟩
            · simpa [submittedEvents] using hsub
            · simp [hsplit]
            · simp only [foldSteps, List.foldl_append, List.foldl_cons, List.foldl_nil]
              simp only [foldSteps] at hfold
              rw [← hfold]

/-- The worker inside its loop over the steps comes back to its receive after
one action per step left and one more, having folded those steps. -/
theorem exec_work_folding (evt : ValueEvent) (rest : List Step) (p : Pipeline) :
    Worker.exec { pipeline := p, control := WorkerControl.folding evt rest }
        (List.replicate (rest.length + 1) Action.work)
      = some { pipeline := { p with
                 state := (foldSteps rest evt (p.state, p.output)).1
                 output := (foldSteps rest evt (p.state, p.output)).2 }
               control := WorkerControl.receiving } := by
  induction rest generalizing p with
  | nil => rfl
  | cons fn rest ih =>
    have hstep : Worker.exec { pipeline := p, control := WorkerControl.folding evt (fn :: rest) }
          (List.replicate ((fn :: rest).length + 1) Action.work)
        = Worker.exec { pipeline := { p with
                          state := (fn evt p.state).1
                          output := p.output ++ (fn evt p.state).2 }
                        control := WorkerControl.folding evt rest }
            (List.replicate (rest.length + 1) Action.work) := rfl
    rw [hstep, ih]
    rfl

/-- The prompt schedule, from a worker at its receive, processes all the events. -/
theorem exec_promptSchedule (p : Pipeline) (events : List ValueEvent) :
    Worker.exec { pipeline := p, control := WorkerControl.receiving }
        (promptSchedule p.steps.length events)
      = some { pipeline := p.run events, control := WorkerControl.receiving } := by
  induction events generalizing p with
  | nil => rfl
  | cons evt more ih =>
    have hsend : Worker.exec { pipeline := p, control := WorkerControl.receiving }
          (promptSchedule p.steps.length (evt :: more))
        = Worker.exec { pipeline := p, control := WorkerControl.folding evt p.steps }
            (List.replicate (p.steps.length + 1) Action.work
              ++ promptSchedule p.steps.length more) := rfl
    rw [hsend, exec_append, exec_work_folding]
    exact ih (p.process evt)

theorem submittedEvents_replicate_work (k : Nat) :
    submittedEvents (List.replicate k Action.work) = [] := by
  induction k with
  | zero => rfl
  | succ k ih => simpa [List.replicate_succ, submittedEvents] using ih

theorem submittedEvents_promptSchedule (n : Nat) (events : List ValueEvent) :
    submittedEvents (promptSchedule n events) = events := by
  induction events with
  | nil => rfl
  | cons evt more ih =>
    have h : submittedEvents (List.replicate (n + 1) Action.work ++ promptSchedule n more)
        = more := by
      rw [submittedEvents_append, submittedEvents_replicate_work, ih, List.nil_append]
    show evt :: submittedEvents
      (List.replicate (n + 1) Action.work ++ promptSchedule n more) = evt :: more
    rw [h]


/-! ## Lemmas on slices -/

theorem getD_set_self (h : Heap) (i : Nat) (cells : List ValueEvent) (hi : i < h.length) :
    (h.set i cells).getD i [] = cells := by
  simp [List.getD_eq_getElem?_getD, List.getElem?_set, hi]

theorem getD_append_length (h : Heap) (cells : List ValueEvent) :
    (h ++ [cells]).getD h.length [] = cells := by
  simp [List.getD_eq_getElem?_getD]

/-- Reading a window of an array after writing at its end. -/
theorem window_after_write (cells xs : List ValueEvent) (off len : Nat)
    (hfit : off + len ≤ cells.length) :
    ((cells.take (off + len) ++ xs ++ cells.drop (off + len + xs.length)).drop off).take
        (len + xs.length)
      = (cells.drop off).take len ++ xs := by
  have h1 : (cells.take off).length = off := by rw [List.length_take]; omega
  have h2 : ((cells.drop off).take len ++ xs).length = len + xs.length := by
    rw [List.length_append, List.length_take, List.length_drop]; omega
  have h3 : cells.take (off + len) = cells.take off ++ (cells.drop off).take len :=
    List.take_add cells off len
  rw [h3, List.append_assoc, List.append_assoc, List.drop_left' h1,
    ← List.append_assoc, List.take_left' h2]

theorem read_length (h : Heap) (s : Slice) (hwf : h.wellFormed s) :
    (h.read s).length = s.len := by
  obtain ⟨hlen, hcap | ⟨_, hfit⟩⟩ := hwf
  · have h0 : s.len = 0 := by omega
    rw [Heap.read, h0, List.take_zero]
    rfl
  · rw [Heap.read, List.length_take, List.length_drop]
    omega

theorem read_tail (h : Heap) (s : Slice) :
    h.read { array := s.array, offset := s.offset + 1, len := s.len - 1, cap := s.cap - 1 }
      = (h.read s).drop 1 := by
  simp only [Heap.read]
  rw [List.drop_take, List.drop_drop]

/-- What `append` returns shows the elements of its first argument, then the
elements appended. -/
theorem appendSlice_read (grow : Nat → Nat → Nat) (h : Heap) (dst : Slice)
    (xs : List ValueEvent) (hwf : h.wellFormed dst) :
    (appendSlice grow h dst xs).1.read (appendSlice grow h dst xs).2 = h.read dst ++ xs := by
  have hlen := read_length h dst hwf
  unfold appendSlice
  by_cases hfit : dst.len + xs.length ≤ dst.cap
  · rw [if_pos hfit]
    obtain ⟨_, hcap | ⟨harr, hin⟩⟩ := hwf
    · have h0 : dst.len = 0 := by omega
      have hx : xs = [] := List.length_eq_zero.mp (by omega)
      rw [hx, Heap.read, Heap.read, h0]
      rfl
    · show (((h.writeAll dst.array (dst.offset + dst.len) xs).getD dst.array []).drop
          dst.offset).take (dst.len + xs.length) = h.read dst ++ xs
      rw [Heap.writeAll, getD_set_self h _ _ harr, window_after_write _ _ _ _ (by omega)]
      rfl
  · rw [if_neg hfit]
    show (((h ++ [_]).getD h.length []).drop 0).take (dst.len + xs.length) = h.read dst ++ xs
    have h2 : (h.read dst ++ xs).length = dst.len + xs.length := by
      rw [List.length_append, hlen]
    rw [getD_append_length, List.drop_zero, List.take_left' h2]

theorem appendSlice_len (grow : Nat → Nat → Nat) (h : Heap) (dst : Slice)
    (xs : List ValueEvent) : (appendSlice grow h dst xs).2.len = dst.len + xs.length := by
  unfold appendSlice
  split <;> rfl

theorem appendSlice_wellFormed (grow : Nat → Nat → Nat) (h : Heap) (dst : Slice)
    (xs : List ValueEvent) (hwf : h.wellFormed dst) :
    (appendSlice grow h dst xs).1.wellFormed (appendSlice grow h dst xs).2 := by
  have hlen := read_length h dst hwf
  unfold appendSlice
  by_cases hfit : dst.len + xs.length ≤ dst.cap
  · rw [if_pos hfit]
    obtain ⟨_, hcap | ⟨harr, hin⟩⟩ := hwf
    · exact ⟨hfit, Or.inl hcap⟩
    · refine ⟨hfit, Or.inr ⟨?_, ?_⟩⟩
      · show dst.array < (h.writeAll dst.array (dst.offset + dst.len) xs).length
        rw [Heap.writeAll, List.length_set]
        exact harr
      · show dst.offset + dst.cap
          ≤ ((h.writeAll dst.array (dst.offset + dst.len) xs).getD dst.array []).length
        rw [Heap.writeAll, getD_set_self h _ _ harr, List.length_append, List.length_append,
          List.length_take, List.length_drop]
        omega
  · rw [if_neg hfit]
    refine ⟨le_max_right _ _, Or.inr ⟨?_, ?_⟩⟩
    · show h.length < (h ++ [_]).length
      rw [List.length_append, List.length_singleton]
      omega
    · show 0 + max (grow dst.cap (dst.len + xs.length)) (dst.len + xs.length)
        ≤ ((h ++ [_]).getD h.length []).length
      rw [getD_append_length, List.length_append, List.length_append, List.length_replicate, hlen]
      have := le_max_right (grow dst.cap (dst.len + xs.length)) (dst.len + xs.length)
      omega

theorem wellFormed_truncate (h : Heap) (s : Slice) (hwf : h.wellFormed s) :
    h.wellFormed { s with len := 0 } :=
  ⟨Nat.zero_le _, hwf.2⟩

theorem read_truncate (h : Heap) (s : Slice) : h.read { s with len := 0 } = [] := by
  simp [Heap.read]

/-- The slice-level accumulator shows what the list-level one returns: on a
well-formed slice, the state `addHistoryStepMem` returns denotes the state
`addHistoryStep` returns on the state denoted by its argument. -/
theorem addHistoryStepMem_view (grow : Nat → Nat → Nat) (maxDepth : Int) (evt : ValueEvent)
    (h : Heap) (st : PipelineStateMem) (hwf : h.wellFormed st.History) :
    (addHistoryStepMem grow maxDepth evt h st).2.view (addHistoryStepMem grow maxDepth evt h st).1
      = addHistoryStep maxDepth evt (st.view h) := by
  have hr1 := appendSlice_read grow h st.History [evt] hwf
  have hw1 := appendSlice_wellFormed grow h st.History [evt] hwf
  have hl1 := appendSlice_len grow h st.History [evt]
  have hlen := read_length h st.History hwf
  have hcond : (maxDepth < ((appendSlice grow h st.History [evt]).2.len : Int))
      ↔ (maxDepth < (((st.view h).History ++ [evt]).length : Int)) := by
    rw [hl1]
    simp only [PipelineStateMem.view, List.length_append, hlen]
  unfold addHistoryStepMem addHistoryStep
  by_cases hd : maxDepth < ((appendSlice grow h st.History [evt]).2.len : Int)
  · simp only [if_pos hd, if_pos (hcond.mp hd)]
    simp only [PipelineStateMem.view]
    rw [appendSlice_read grow _ _ _ (wellFormed_truncate _ _ hw1), read_truncate, read_tail, hr1,
      List.take_zero]
  · simp only [if_neg hd, if_neg (fun hc => hd (hcond.mpr hc))]
    simp only [PipelineStateMem.view, hr1]

/-- With spare capacity and a trim, the accumulator works in place: the slice
header it returns is the one it was given, and the elements seen through that
header have moved one place to the front. -/
theorem addHistoryStepMem_in_place (grow : Nat → Nat → Nat) (maxDepth : Int) (evt : ValueEvent)
    (h : Heap) (st : PipelineStateMem) (hwf : h.wellFormed st.History)
    (hspare : st.History.len < st.History.cap)
    (htrim : maxDepth < (st.History.len : Int) + 1) :
    (addHistoryStepMem grow maxDepth evt h st).2.History = st.History ∧
    (addHistoryStepMem grow maxDepth evt h st).1.read st.History
      = (h.read st.History ++ [evt]).drop 1 := by
  have hview := addHistoryStepMem_view grow maxDepth evt h st hwf
  have hhist := congrArg PipelineState.History hview
  simp only [PipelineStateMem.view, addHistoryStep_history] at hhist
  rw [read_length h st.History hwf, if_pos htrim] at hhist
  have hsame : (addHistoryStepMem grow maxDepth evt h st).2.History = st.History := by
    have hlen := read_length h st.History hwf
    have hr1 := appendSlice_read grow h st.History [evt] hwf
    have hfit1 : st.History.len + [evt].length ≤ st.History.cap := by
      simp only [List.length_singleton]; omega
    have e1 : appendSlice grow h st.History [evt]
        = (h.writeAll st.History.array (st.History.offset + st.History.len) [evt],
            { st.History with len := st.History.len + [evt].length }) := by
      unfold appendSlice
      rw [if_pos hfit1]
    unfold addHistoryStepMem
    simp only [e1, List.length_singleton]
    rw [if_pos (by exact_mod_cast htrim)]
    simp only
    rw [e1] at hr1
    simp only [List.length_singleton] at hr1
    have hxs : (Heap.read (h.writeAll st.History.array (st.History.offset + st.History.len) [evt])
        { array := st.History.array, offset := st.History.offset + 1,
          len := st.History.len + 1 - 1, cap := st.History.cap - 1 }).length
        = st.History.len := by
      have := read_tail (h.writeAll st.History.array (st.History.offset + st.History.len) [evt])
        { st.History with len := st.History.len + 1 }
      simp only at this
      rw [this, hr1, List.length_drop, List.length_append, hlen, List.length_singleton]
      omega
    unfold appendSlice
    simp only [hxs, Nat.zero_add]
    rw [if_pos (by omega)]
  rw [hsame] at hhist
  exact ⟨hsame, hhist⟩


/-! ## The claims on the ingestion loop, the worker and the slices -/

/-- C11: parse-failure isolation.  For every parser and every sequence of
newline-terminated input lines, followed by any further input, after as many
iterations as there are lines the loop of `main` is still running, has consumed
the lines, and has submitted to `demo1` exactly, in order, one event per line
whose text without the terminator parses, with the value parsed and the raw line
text under `val`; the pipeline has processed these events and no other, every
failing line has a diagnostic, no further iteration adds a submission when the
input ends with the lines, and an iteration on a line that fails to parse
changes neither the submissions nor the pipeline. -/
theorem parse_failure_isolation (parseFloat : String → Except String Float64)
    (lines : List (List Char)) (hlines : ∀ line ∈ lines, '\n' ∉ line) (rest : List Char) :
    (mainLoop parseFloat lines.length (mainStart (joinLines lines ++ rest))).isPanicked = false ∧
    (mainLoop parseFloat lines.length (mainStart (joinLines lines ++ rest))).state.stdin = rest ∧
    (mainLoop parseFloat lines.length (mainStart (joinLines lines ++ rest))).state.submitted
      = expectedSubmissions parseFloat lines ∧
    (mainLoop parseFloat lines.length (mainStart (joinLines lines ++ rest))).state.demo1
      = demo1.run (expectedSubmissions parseFloat lines) ∧
    (mainLoop parseFloat lines.length (mainStart (joinLines lines ++ rest))).state.printed
      = expectedDiagnostics parseFloat lines ∧
    (∀ further : Nat,
      (mainLoop parseFloat (lines.length + further) (mainStart (joinLines lines))).state.submitted
        = expectedSubmissions parseFloat lines) ∧
    (∀ (w : MainState) (line more : List Char) (err : String), '\n' ∉ line →
      w.stdin = line ++ '\n' :: more → parseFloat (String.mk line) = Except.error err →
      mainIteration parseFloat w = some { w with
        stdin := more
        parseCalls := w.parseCalls ++ [String.mk line]
        printed := w.printed ++ ["Error getting float: " ++ err] }) := by
  rw [mainLoop_lines parseFloat lines hlines rest (mainStart (joinLines lines ++ rest)) rfl]
  refine ⟨rfl, rfl, ?_, rfl, ?_, ?_, ?_⟩
  · simp [MainOutcome.state, mainStart]
  · simp [MainOutcome.state, mainStart]
  · intro further
    rw [mainLoop_add, mainLoop_lines parseFloat lines hlines [] (mainStart (joinLines lines))
      (by simp [mainStart])]
    simp only
    rw [mainLoop_end_of_input parseFloat further _ rfl]
    simp [mainStart]
  · intro w line more err hline hw hp
    rw [mainIteration_line parseFloat w line more hline hw, hp]

/-- C11 at the input `abc`, newline, `3.5`, newline, with the decimal parser:
one submission, for 3.5, and one diagnostic, for `abc`. -/
theorem parse_failure_isolation_witness :
    (mainLoop parseDecimal 2 (mainStart "abc\n3.5\n".data)).state.submitted
      = [lineEvent (Float64.finite false 7881299347898368 (-51)) "3.5\n".data] ∧
    (mainLoop parseDecimal 2 (mainStart "abc\n3.5\n".data)).state.printed
      = ["Error getting float: strconv.ParseFloat: parsing \"abc\": invalid syntax"] ∧
    (mainLoop parseDecimal 2 (mainStart "abc\n3.5\n".data)).state.demo1.state.ValueText
      = "3.50" :=
  have h := parse_failure_isolation parseDecimal ["abc".data, "3.5".data] (by decide) []
  ⟨h.2.2.1.trans (by decide!), h.2.2.2.2.1.trans (by decide!), by decide!⟩

/-- C12: per-pipeline FIFO processing.  Under every sequence of actions (sends
meeting the worker's receive, statements of the worker, steps of other
goroutines) that leaves the worker of a pipeline back at its receive, the state
and the output of the pipeline are those of folding the step list over the
events sent, in the order sent, from the initial state.  A send cannot complete
while the worker is inside its loop over the steps, so events are processed one
at a time; and for every list of events there is a schedule that sends them all
and has them processed. -/
theorem worker_processes_in_submission_order (name : String) (steps : List Step) :
    (∀ (acts : List Action) (w : Worker), (startWorker name steps).exec acts = some w →
      w.control = WorkerControl.receiving →
      w.pipeline.state = ((buildPipeline name steps).run (submittedEvents acts)).state ∧
      w.pipeline.state
        = (submittedEvents acts).foldl
            (fun st evt => steps.foldl (fun s fn => (fn evt s).1) st) initialState ∧
      w.pipeline.output = ((buildPipeline name steps).run (submittedEvents acts)).output) ∧
    (∀ (w : Worker) (evt next : ValueEvent) (rest : List Step),
      w.control = WorkerControl.folding evt rest → w.step (Action.send next) = none) ∧
    (∀ events : List ValueEvent,
      submittedEvents (promptSchedule steps.length events) = events ∧
      (startWorker name steps).exec (promptSchedule steps.length events)
        = some { pipeline := (buildPipeline name steps).run events,
                 control := WorkerControl.receiving }) := by
  refine ⟨?_, ?_, ?_⟩
  · intro acts w h hc
    rcases (exec_invariant name steps acts w h).2 with ⟨_, hp⟩ | ⟨e, prev, done, rest, hc2, _⟩
    · rw [hp]
      refine ⟨rfl, ?_, rfl⟩
      generalize submittedEvents acts = events
      induction events using List.reverseRecOn with
      | nil => rfl
      | append_singleton es e ih =>
        rw [run_snoc, process_state, run_steps, ih, List.foldl_append]
        rfl
    · rw [hc] at hc2
      exact absurd hc2 (by simp)
  · intro w evt next rest hc
    simp [Worker.step, hc]
  · intro events
    exact ⟨submittedEvents_promptSchedule _ _, exec_promptSchedule (buildPipeline name steps) events⟩

/-- C13, as amended: for every event and every state whose History is empty,
`addHistoryStep(0, evt, st)` returns a state whose History is empty: the item
just appended is evicted at once. -/
theorem addHistoryStep_zero_depth (evt : ValueEvent) (st : PipelineState)
    (hempty : st.History = []) :
    (addHistoryStep 0 evt st).History = [] := by
  rw [addHistoryStep_history, hempty]
  rfl

/-- C13 amended, at the initial state of a pipeline. -/
theorem addHistoryStep_zero_depth_witness :
    initialState.History = [] ∧
    (addHistoryStep 0 (sampleEvent 1 "1\n") initialState).History = [] :=
  ⟨rfl, addHistoryStep_zero_depth (sampleEvent 1 "1\n") initialState rfl⟩

/-- C13 as stated fails: with maxDepth 0 and a state that holds one event, the
history returned holds the event just appended. -/
theorem addHistoryStep_zero_depth_keeps_event :
    (addHistoryStep 0 (sampleEvent 2 "2\n")
        (PipelineState.mk "" [sampleEvent 1 "1\n"] [])).History = [sampleEvent 2 "2\n"] ∧
    (addHistoryStep 0 (sampleEvent 2 "2\n")
        (PipelineState.mk "" [sampleEvent 1 "1\n"] [])).History ≠ [] := by
  decide!

/-- C14 fails when the slice has spare capacity and the history is trimmed.
For every growth policy, maxDepth, event, heap and state with a well-formed
History slice whose capacity exceeds its length, and with
`len(st.History) + 1 > maxDepth`, `addHistoryStep` returns the slice header it
was given and the elements seen through the caller's `st.History` become those
of `st.History ++ [evt]` without the first.  The pipeline `demo1` is in such a
state after three events (a slice of length 2 and capacity 4 showing events 2
and 3): the call for a fourth event makes that slice show events 3 and 4. -/
theorem addHistoryStep_overwrites_caller_history :
    (∀ (grow : Nat → Nat → Nat) (maxDepth : Int) (evt : ValueEvent) (h : Heap)
        (st : PipelineStateMem),
      h.wellFormed st.History → st.History.len < st.History.cap →
      maxDepth < (st.History.len : Int) + 1 →
      (addHistoryStepMem grow maxDepth evt h st).2.History = st.History ∧
      (addHistoryStepMem grow maxDepth evt h st).1.read st.History
        = (h.read st.History ++ [evt]).drop 1) ∧
    memAfterThreeEvents.2.History = { array := 2, offset := 0, len := 2, cap := 4 } ∧
    memAfterThreeEvents.1.read memAfterThreeEvents.2.History
      = [sampleEvent 2 "2\n", sampleEvent 3 "3\n"] ∧
    (addHistoryStepMem doubleGrow 2 (sampleEvent 4 "4\n") memAfterThreeEvents.1
        memAfterThreeEvents.2).1.read memAfterThreeEvents.2.History
      = [sampleEvent 3 "3\n", sampleEvent 4 "4\n"] ∧
    (addHistoryStepMem doubleGrow 2 (sampleEvent 4 "4\n") memAfterThreeEvents.1
        memAfterThreeEvents.2).1.read memAfterThreeEvents.2.History
      ≠ memAfterThreeEvents.1.read memAfterThreeEvents.2.History := by
  refine ⟨fun grow maxDepth evt h st hwf hspare htrim =>
    addHistoryStepMem_in_place grow maxDepth evt h st hwf hspare htrim, ?_, ?_, ?_, ?_⟩ <;>
  decide!

/-- C15 fails on a last line without terminator.  The text handed to the parser
is the text read without its last character, whatever that character is: it is
the line without its terminator exactly when the text read ends with a newline.
On the input `3.5` with no newline the parser is handed `3.`, not `3.5`, and
the event submitted carries the value 3. -/
theorem parser_argument_drops_last_character :
    (∀ text : List Char, text ≠ [] →
      sliceBeforeLast text = some text.dropLast ∧
      (sliceBeforeLast text = some (stripTerminator text) ↔ text.getLast? = some '\n')) ∧
    (readString "3.5".data).1 = "3.5".data ∧
    stripTerminator "3.5".data = "3.5".data ∧
    (mainLoop parseDecimal 1 (mainStart "3.5".data)).state.parseCalls = ["3."] ∧
    (mainLoop parseDecimal 1 (mainStart "3.5".data)).state.submitted
      = [lineEvent (Float64.ofInt 3) "3.5".data] := by
  refine ⟨fun text hne => ⟨sliceBeforeLast_of_ne_nil text hne, ?_⟩, by decide, by decide,
    by decide!, by decide!⟩
  rw [sliceBeforeLast_of_ne_nil text hne, stripTerminator]
  by_cases hlast : text.getLast? = some '\n'
  · simp [hlast]
  · simp only [hlast, if_false, Option.some.injEq, iff_false]
    intro h
    have hlen := congrArg List.length h
    rw [List.length_dropLast] at hlen
    have := List.length_pos.mpr hne
    omega

/-- C16: the exact shape of one accumulator step.  For every integer maxDepth,
event and state, the History returned is `st.History ++ [evt]` when
`len(st.History) + 1 <= maxDepth`, and otherwise that list without its first
element; its length is `len(st.History) + 1` or `len(st.History)`, so one
element at most is evicted by a call. -/
theorem addHistoryStep_exact_shape (maxDepth : Int) (evt : ValueEvent) (st : PipelineState) :
    ((st.History.length : Int) + 1 ≤ maxDepth →
      (addHistoryStep maxDepth evt st).History = st.History ++ [evt]) ∧
    (¬ (st.History.length : Int) + 1 ≤ maxDepth →
      (addHistoryStep maxDepth evt st).History = (st.History ++ [evt]).tail) ∧
    ((addHistoryStep maxDepth evt st).History.length = st.History.length + 1 ∨
      (addHistoryStep maxDepth evt st).History.length = st.History.length) ∧
    (st.History ++ [evt]).length - (addHistoryStep maxDepth evt st).History.length ≤ 1 := by
  rw [addHistoryStep_history]
  by_cases h : maxDepth < (st.History.length : Int) + 1
  · rw [if_pos h]
    have hlen : ((st.History ++ [evt]).drop 1).length = st.History.length := by simp
    refine ⟨fun h2 => absurd h2 (by omega), fun _ => List.drop_one _, Or.inr hlen, ?_⟩
    rw [hlen, List.length_append, List.length_singleton]
    omega
  · rw [if_neg h]
    have hlen : (st.History ++ [evt]).length = st.History.length + 1 := by simp
    refine ⟨fun _ => rfl, fun h2 => absurd (by omega) h2, Or.inl hlen, ?_⟩
    omega

/-- C17 fails at end of input.  On the empty text, which `ReadString` returns
once the input is used up, the slice `text[:len(text)-1]` is out of range and
the iteration panics; so on every input, with every parser, the loop of `main`
panics within as many iterations as the input has characters, plus one.  On a
non-empty text the slice is in range. -/
theorem ingestion_panics_at_end_of_input :
    sliceBeforeLast (readString []).1 = none ∧
    (∀ (parseFloat : String → Except String Float64) (w : MainState), w.stdin = [] →
      mainIteration parseFloat w = none) ∧
    (∀ (parseFloat : String → Except String Float64) (input : List Char),
      (mainLoop parseFloat (input.length + 1) (mainStart input)).isPanicked = true) ∧
    (mainLoop parseDecimal 2 (mainStart "1\n".data)).isPanicked = true ∧
    (∀ text : List Char, text ≠ [] → sliceBeforeLast text ≠ none) := by
  refine ⟨by decide, ?_, ?_, by decide!, ?_⟩
  · intro parseFloat w hw
    simp [mainIteration, hw, readString, sliceBeforeLast_nil]
  · intro parseFloat input
    exact mainLoop_panics parseFloat _ _ (by simp [mainStart])
  · intro text hne
    rw [sliceBeforeLast_of_ne_nil text hne]
    simp

end PipelineDemo
